import Mathlib

/-!
Verification development for the suggestive2 MPD client.

The definitions below are shallow embeddings of the Python functions in
`suggestive2/mpd.py`, `suggestive2/util.py` and `suggestive2/app.py`.
Python strings are modelled as Lean `String` (or `List Char` where the code
works character by character), Python dicts (insertion ordered, overwrite on
duplicate key) as association lists, and async generators as pure functions
returning lists.  `str.lower` is modelled by ASCII lowering, which is the
fragment the program exercises.
-/

/-- Model of Python `str.lower` on one character (ASCII fragment). -/
def lowerChar (c : Char) : Char :=
  if 65 ≤ c.toNat ∧ c.toNat ≤ 90 then Char.ofNat (c.toNat + 32) else c

/-- Model of Python `str.lower` on a list of characters. -/
def lowerList (cs : List Char) : List Char :=
  cs.map lowerChar

/-- Model of Python `str.lower` on a string. -/
def lowerString (s : String) : String :=
  String.mk (lowerList s.data)

/-- A Record: the insertion-ordered string-to-string mapping built by
`MPDClient._run_tagged` (a Python dict), as an association list. -/
abbrev Record : Type := List (String × String)

/-- Assignment `obj[tag] = value` on a Python dict: overwrite in place if the key is
present (keeping its position), else append at the end. -/
def Record.insert (r : Record) (k v : String) : Record :=
  if r.any (fun p => decide (p.1 = k)) then
    r.map (fun p => if p.1 = k then (k, v) else p)
  else
    r ++ [(k, v)]

/-- Read access `obj[tag]` on a Python dict (keys are unique, first match). -/
def Record.lookup? : Record → String → Option String
  | [], _ => none
  | p :: rest, k => if p.1 = k then some p.2 else Record.lookup? rest k

/-- The body of `MPDClient._run_tagged` (mpd.py lines 150-162): iterate over
the `key: value` lines (already split at the first `: `, as
`line.split(': ', 1)` does), lower-casing the key, emitting the accumulator
when the key equals the start field `t` and the accumulator is non-empty,
then emitting a final non-empty accumulator. -/
def run_tagged_aux (t : String) : List (String × String) → Record → List Record
  | [], obj => if obj = [] then [] else [obj]
  | line :: rest, obj =>
    if lowerString line.1 = t ∧ obj ≠ [] then
      obj :: run_tagged_aux t rest (Record.insert [] (lowerString line.1) line.2)
    else
      run_tagged_aux t rest (Record.insert obj (lowerString line.1) line.2)

/-- Parser `MPDClient._run_tagged`: parse a response line sequence into Records. -/
def run_tagged (t : String) (lines : List (String × String)) : List Record :=
  run_tagged_aux t lines []

/-- One step of the spec's parser description (spec section 4.2): "When a
line's key equals the start field and the accumulator is non-empty, emit the
accumulator and start a new one; otherwise insert/overwrite the field into
the accumulator."  Keys are lower-cased. -/
def parserStep (t : String) (acc : List Record × Record) (line : String × String) :
    List Record × Record :=
  if lowerString line.1 = t ∧ acc.2 ≠ [] then
    (acc.1 ++ [acc.2], Record.insert [] (lowerString line.1) line.2)
  else
    (acc.1, Record.insert acc.2 (lowerString line.1) line.2)

/-- Model of the spec's parser description as a fold of `parserStep`,
emitting a final non-empty accumulator after the lines end. -/
def parserSpecModel (t : String) (lines : List (String × String)) : List Record :=
  if (lines.foldl (parserStep t) ([], [])).2 = [] then
    (lines.foldl (parserStep t) ([], [])).1
  else
    (lines.foldl (parserStep t) ([], [])).1 ++ [(lines.foldl (parserStep t) ([], [])).2]

/-- Number of lines whose lower-cased key equals the start field. -/
def countStart (t : String) (lines : List (String × String)) : Nat :=
  (lines.filter fun line => decide (lowerString line.1 = t)).length

lemma run_tagged_aux_foldl (t : String) (lines : List (String × String)) :
    ∀ (R : List Record) (obj : Record),
      (if (lines.foldl (parserStep t) (R, obj)).2 = [] then
        (lines.foldl (parserStep t) (R, obj)).1
      else
        (lines.foldl (parserStep t) (R, obj)).1 ++ [(lines.foldl (parserStep t) (R, obj)).2])
      = R ++ run_tagged_aux t lines obj := by
  induction lines with
  | nil =>
    intro R obj
    simp only [List.foldl_nil, run_tagged_aux]
    by_cases h : obj = []
    · simp [h]
    · simp [h]
  | cons line rest ih =>
    intro R obj
    simp only [List.foldl_cons, run_tagged_aux]
    by_cases h : lowerString line.1 = t ∧ obj ≠ []
    · rw [if_pos h]
      have hstep : parserStep t (R, obj) line
          = (R ++ [obj], Record.insert [] (lowerString line.1) line.2) := by
        unfold parserStep
        rw [if_pos h]
      rw [hstep, ih (R ++ [obj]) (Record.insert [] (lowerString line.1) line.2)]
      simp
    · rw [if_neg h]
      have hstep : parserStep t (R, obj) line
          = (R, Record.insert obj (lowerString line.1) line.2) := by
        unfold parserStep
        rw [if_neg h]
      rw [hstep]
      exact ih R (Record.insert obj (lowerString line.1) line.2)

lemma lookup_map_overwrite (k v : String) :
    ∀ r : Record, r.any (fun p => decide (p.1 = k)) = true →
      Record.lookup? (r.map fun p => if p.1 = k then (k, v) else p) k = some v := by
  intro r
  induction r with
  | nil => simp
  | cons p rest ih =>
    intro h
    by_cases hp : p.1 = k
    · simp [Record.lookup?, hp]
    · have hrest : rest.any (fun p => decide (p.1 = k)) = true := by
        simpa [List.any_cons, hp] using h
      simp [Record.lookup?, hp, ih hrest]

lemma lookup_append_new (k v : String) :
    ∀ r : Record, r.any (fun p => decide (p.1 = k)) = false →
      Record.lookup? (r ++ [(k, v)]) k = some v := by
  intro r
  induction r with
  | nil => simp [Record.lookup?]
  | cons p rest ih =>
    intro h
    rw [List.any_cons] at h
    have hp : ¬ p.1 = k := by
      intro he
      simp [he] at h
    have hrest : rest.any (fun p => decide (p.1 = k)) = false := by
      rcases Bool.or_eq_false_iff.mp h with ⟨_, h2⟩
      exact h2
    simp [Record.lookup?, hp, ih hrest]

lemma lookup_insert (r : Record) (k v : String) :
    Record.lookup? (Record.insert r k v) k = some v := by
  unfold Record.insert
  by_cases h : r.any (fun p => decide (p.1 = k)) = true
  · rw [if_pos h]
    exact lookup_map_overwrite k v r h
  · rw [if_neg h]
    exact lookup_append_new k v r (Bool.eq_false_iff.mpr h)

/-- C1: the response parser lower-cases each key, maintains an accumulator
Record, emits the accumulator and starts a new one exactly when a line's key
equals the start field and the accumulator is non-empty, otherwise
inserts/overwrites the field (duplicate keys resolve to the last value),
emits a final non-empty accumulator, and yields zero Records for an empty
line sequence: `run_tagged` (translated from `MPDClient._run_tagged`) agrees
with the accumulator algorithm stated by the spec, returns `[]` on no lines,
and its field insertion is last-write-wins. -/
theorem c1_parser_algorithm (t : String) (lines : List (String × String))
    (r : Record) (k v : String) :
    run_tagged t lines = parserSpecModel t lines
      ∧ run_tagged t [] = []
      ∧ Record.lookup? (Record.insert r k v) k = some v := by
  refine ⟨?_, rfl, lookup_insert r k v⟩
  unfold parserSpecModel run_tagged
  simpa using (run_tagged_aux_foldl t lines [] []).symm

lemma insert_ne_nil (r : Record) (k v : String) : Record.insert r k v ≠ [] := by
  unfold Record.insert
  by_cases h : r.any (fun p => decide (p.1 = k)) = true
  · rw [if_pos h]
    intro hmap
    rcases r with _ | ⟨p, rest⟩
    · simp at h
    · simp at hmap
  · rw [if_neg h]
    simp

lemma run_tagged_aux_length (t : String) :
    ∀ (lines : List (String × String)) (obj : Record), obj ≠ [] →
      (run_tagged_aux t lines obj).length = countStart t lines + 1 := by
  intro lines
  induction lines with
  | nil =>
    intro obj hobj
    simp [run_tagged_aux, hobj, countStart]
  | cons line rest ih =>
    intro obj hobj
    by_cases hc : lowerString line.1 = t
    · rw [run_tagged_aux, if_pos ⟨hc, hobj⟩]
      rw [List.length_cons, ih _ (insert_ne_nil [] (lowerString line.1) line.2)]
      simp [countStart, hc]
    · rw [run_tagged_aux, if_neg (fun hand => hc hand.1)]
      rw [ih _ (insert_ne_nil obj (lowerString line.1) line.2)]
      simp [countStart, hc]

/-- C2 counterexample: a line sequence whose first line's key is not the
start field yields one Record although the start field occurs zero times. -/
theorem c2_counterexample :
    (run_tagged ("file") [("artist", "x")]).length = 1
      ∧ countStart ("file") [("artist", "x")] = 0 := by
  constructor
  · rfl
  · rfl

/-- C2 (amended): for every raw response line sequence that is empty or whose
first line's lower-cased key equals the start field, the number of Records
produced by the parser equals the number of start-field occurrences in the
line sequence.  (Without the condition on the first line, fields occurring
before the first start-field line produce one extra Record.) -/
theorem c2_amended (t : String) (lines : List (String × String))
    (h : lines = [] ∨ ∃ line rest, lines = line :: rest ∧ lowerString line.1 = t) :
    (run_tagged t lines).length = countStart t lines := by
  rcases h with h | ⟨line, rest, hcons, hline⟩
  · subst h; rfl
  · subst hcons
    unfold run_tagged
    rw [run_tagged_aux, if_neg (fun hand => hand.2 rfl)]
    rw [run_tagged_aux_length t rest _ (insert_ne_nil [] (lowerString line.1) line.2)]
    simp [countStart, hline]

/-- Witness for C2 (amended) at a concrete input. -/
theorem c2_amended_witness :
    (run_tagged ("file") [("File", "a"), ("title", "x"), ("file", "b")]).length
      = countStart ("file") [("File", "a"), ("title", "x"), ("file", "b")] :=
  c2_amended ("file") _ (Or.inr ⟨("File", "a"), [("title", "x"), ("file", "b")], rfl, by decide⟩)

lemma run_tagged_aux_ne_nil (t : String) :
    ∀ (lines : List (String × String)) (obj : Record) (r : Record),
      r ∈ run_tagged_aux t lines obj → r ≠ [] := by
  intro lines
  induction lines with
  | nil =>
    intro obj r hr
    rw [run_tagged_aux] at hr
    by_cases hobj : obj = []
    · rw [if_pos hobj] at hr
      exact absurd hr (List.not_mem_nil r)
    · rw [if_neg hobj] at hr
      rcases List.mem_singleton.mp hr with rfl
      exact hobj
  | cons line rest ih =>
    intro obj r hr
    rw [run_tagged_aux] at hr
    by_cases hc : lowerString line.1 = t ∧ obj ≠ []
    · rw [if_pos hc] at hr
      rcases List.mem_cons.mp hr with rfl | hmem
      · exact hc.2
      · exact ih _ r hmem
    · rw [if_neg hc] at hr
      exact ih _ r hr

/-- C10: every Record yielded by the tagged response parser contains at least
one field; an empty Record is never emitted, even when the lines contain no
occurrence of the start field. -/
theorem c10_no_empty_record (t : String) (lines : List (String × String))
    (r : Record) (h : r ∈ run_tagged t lines) : r ≠ [] :=
  run_tagged_aux_ne_nil t lines [] r h

/-- Witness for C10 at a concrete input with no start-field occurrence. -/
theorem c10_no_empty_record_witness :
    ([("artist", "x")] : Record) ≠ [] :=
  c10_no_empty_record "file" [("artist", "x")] [("artist", "x")] (by decide)

/-- Table `ESCAPE_TRANSLATION` from util.py: the `str.translate` table mapping `"`
to `\"` and deleting `\n` and `\r`, applied to one character. -/
def translateChar (c : Char) : List Char :=
  if c = '"' then ['\\', '"']
  else if c = '\n' then []
  else if c = '\r' then []
  else [c]

/-- Function `escape` from util.py: translate the value then wrap it in `"`. -/
def escape (s : String) : String :=
  String.mk ('"' :: s.data.flatMap translateChar ++ ['"'])

/-- Model of the spec's escaping description (spec sections 4.4 and 6):
wrap in quotes, every embedded `"` becomes `\"`, embedded newline and
carriage-return characters are stripped. -/
def escapeSpecModel (s : String) : String :=
  String.mk ('"' ::
    ((s.data.filter fun c => decide (¬(c = '\n' ∨ c = '\r'))).flatMap
      fun c => if c = '"' then ['\\', '"'] else [c]) ++ ['"'])

lemma translate_eq_strip_then_quote (cs : List Char) :
    cs.flatMap translateChar
      = (cs.filter fun c => decide (¬(c = '\n' ∨ c = '\r'))).flatMap
          (fun c => if c = '"' then ['\\', '"'] else [c]) := by
  induction cs with
  | nil => rfl
  | cons c rest ih =>
    by_cases hq : c = '"'
    · subst hq
      simp [translateChar, ih]
    · by_cases hn : c = '\n'
      · subst hn
        simp [translateChar, ih]
      · by_cases hr : c = '\r'
        · subst hr
          simp [translateChar, hn, ih]
        · simp [translateChar, hq, hn, hr, ih]

/-- C4: for every input string, the escape function returns the string
wrapped in double quotes, with every embedded `"` replaced by `\"` and every
embedded newline and carriage-return character removed: `escape` (translated
from util.py) equals the transformation stated by the spec. -/
theorem c4_escape (s : String) : escape s = escapeSpecModel s := by
  unfold escape escapeSpecModel
  rw [translate_eq_strip_then_quote]

/-- Python `str.strip` character class (whitespace). -/
def isPySpace (c : Char) : Bool :=
  c = ' ' || c = '\t' || c = '\n' || c = '\r' || c = '\x0b' || c = '\x0c'

/-- Python `str.strip()`: drop whitespace from both ends. -/
def pyStrip (s : String) : String :=
  String.mk (((s.data.dropWhile isPySpace).reverse.dropWhile isPySpace).reverse)

/-- The remainder of a character list after its first space, if any. -/
def afterFirstSpace : List Char → Option (List Char)
  | [] => none
  | c :: cs => if c = ' ' then some cs else afterFirstSpace cs

/-- Model of `line.split(' ', n)[-1]`: the remainder after up to `n` split points. -/
def splitSpaceLast : Nat → List Char → List Char
  | 0, cs => cs
  | n + 1, cs =>
    match afterFirstSpace cs with
    | none => cs
    | some rest => splitSpaceLast n rest

/-- The error message extracted by `MPDClient._run` (mpd.py line 135):
`line.decode().split(' ', 3)[-1]`. -/
def ackMsg (line : String) : String :=
  String.mk (splitSpaceLast 3 line.data)

/-- The message the claim describes: the remainder of the ACK line after the
first space. -/
def ackMsgSpecFirstSpace (line : String) : String :=
  String.mk (splitSpaceLast 1 line.data)

/-- Outcome of draining one command response in `MPDClient._run`. -/
inductive RunOutcome where
  | ok (lines : List String)
  | protocolError (msg : String)
  | incomplete
  deriving DecidableEq

/-- The response-reading loop of `MPDClient._run` (mpd.py lines 123-141) on
the sequence of raw lines (as returned by `readline`, trailing newline
included): a line starting with `ACK ` raises an error carrying
`line.split(' ', 3)[-1]`; the line `OK\n` ends the response successfully;
any other line is stripped and yielded. -/
def runLines : List String → RunOutcome
  | [] => .incomplete
  | line :: rest =>
    if ("ACK ".data.isPrefixOf line.data) then
      .protocolError (ackMsg line)
    else if line = "OK\n" then
      .ok []
    else
      match runLines rest with
      | .ok ys => .ok (pyStrip line :: ys)
      | other => other

/-- C3 counterexample: for the ACK line `ACK a b c d`, the error message the
code carries is `c d` (the remainder after the third space), not the remainder
after the first space `a b c d` as the claim states. -/
theorem c3_counterexample :
    runLines ["ACK a b c d\n"] = RunOutcome.protocolError ("c d\n")
      ∧ ackMsgSpecFirstSpace ("ACK a b c d\n") = "a b c d\n"
      ∧ ("c d\n" : String) ≠ "a b c d\n" := by
  refine ⟨by decide, by decide, by decide⟩

/-- C3 (amended): reading a response terminates successfully on a line
exactly equal to `OK` (raw line `OK\n`), and terminates with a protocol
error on a line beginning with `ACK `, where the error carried to the caller
is `line.split(' ', 3)[-1]` — the remainder after the third space when the
line has at least three, i.e. the server message after the fixed
`[code@pos] {command}` prefix, keeping the trailing newline; in particular
for the reply `ACK [50@0] {play} song doesn't exist` the carried message is
`song doesn't exist` followed by the line terminator. -/
theorem c3_amended (line : String) (rest rest2 : List String) :
    runLines ("OK\n" :: rest2) = RunOutcome.ok []
      ∧ ("ACK ".data.isPrefixOf line.data = true →
          runLines (line :: rest) = RunOutcome.protocolError (ackMsg line))
      ∧ ackMsg ("ACK [50@0] \x7bplay\x7d song doesn\x27t exist\n")
          = "song doesn\x27t exist\n" := by
  refine ⟨?_, ?_, by decide⟩
  · have hack : ("ACK ".data.isPrefixOf "OK\n".data) = false := by decide
    simp [runLines, hack]
  · intro h
    simp [runLines, h]

/-- Witness for C3 (amended) at a concrete ACK line. -/
theorem c3_amended_witness :
    runLines ["ACK a b msg\n"] = RunOutcome.protocolError (ackMsg ("ACK a b msg\n")) :=
  (c3_amended "ACK a b msg\n" [] []).2.1 (by decide)

/-- Method `VimListBox.next_search_match` (app.py lines 212-221): the first index in
the sorted result list greater than the focus, defaulting to the first
element; no move when the result list is empty. -/
def next_search_match : List Nat → Nat → Nat
  | [], focus => focus
  | x :: xs, focus => ((x :: xs).find? fun i => decide (focus < i)).getD x

/-- Method `VimListBox.prev_search_match` (app.py lines 223-233): the first index in
the reversed result list smaller than the focus, defaulting to the last
element; no move when the result list is empty. -/
def prev_search_match : List Nat → Nat → Nat
  | [], focus => focus
  | x :: xs, focus => ((x :: xs).reverse.find? fun i => decide (i < focus)).getD ((x :: xs).getLastD x)

lemma find?_pairwise {α : Type} (R : α → α → Prop) (p : α → Bool) :
    ∀ (l : List α) (x : α), l.Pairwise R → l.find? p = some x →
      x ∈ l ∧ p x = true ∧ ∀ j ∈ l, p j = true → x = j ∨ R x j := by
  intro l
  induction l with
  | nil => simp
  | cons a t ih =>
    intro x hpw hfind
    have hpw' := List.pairwise_cons.mp hpw
    cases hpa : p a
    · rw [List.find?_cons_of_neg _ (by simp [hpa])] at hfind
      obtain ⟨hmem, hpx, hmin⟩ := ih x hpw'.2 hfind
      refine ⟨List.mem_cons_of_mem _ hmem, hpx, ?_⟩
      intro j hj hpj
      rcases List.mem_cons.mp hj with rfl | hjt
      · rw [hpa] at hpj
        exact absurd hpj (by simp)
      · exact hmin j hjt hpj
    · rw [List.find?_cons_of_pos _ hpa] at hfind
      obtain rfl : a = x := by injection hfind
      refine ⟨List.mem_cons_self _ _, hpa, ?_⟩
      intro j hj _
      rcases List.mem_cons.mp hj with rfl | hjt
      · exact Or.inl rfl
      · exact Or.inr (hpw'.1 j hjt)

lemma head_min_of_sorted (x : Nat) (xs : List Nat)
    (hpw : (x :: xs).Pairwise (· < ·)) : ∀ j ∈ x :: xs, x ≤ j := by
  intro j hj
  rcases List.mem_cons.mp hj with rfl | hjt
  · exact Nat.le_refl j
  · exact Nat.le_of_lt ((List.pairwise_cons.mp hpw).1 j hjt)

lemma getLastD_max_of_sorted :
    ∀ (l : List Nat) (d : Nat), l.Pairwise (· < ·) → l ≠ [] →
      ∀ j ∈ l, j ≤ l.getLastD d := by
  intro l
  induction l with
  | nil => intro d _ h; exact absurd rfl h
  | cons a t ih =>
    intro d hpw _ j hj
    have hpw' := List.pairwise_cons.mp hpw
    rw [List.getLastD_cons]
    rcases List.mem_cons.mp hj with rfl | hjt
    · rcases t with _ | ⟨b, ts⟩
      · simp
      · have hb : b ≤ (b :: ts).getLastD j :=
          ih j ((List.pairwise_cons.mp hpw).2) (by simp) b (List.mem_cons_self _ _)
        exact Nat.le_trans (Nat.le_of_lt (hpw'.1 b (List.mem_cons_self _ _))) hb
    · rcases t with _ | ⟨b, ts⟩
      · exact absurd hjt (List.not_mem_nil j)
      · exact ih a hpw'.2 (by simp) j hjt

/-- C7: for every non-empty ascending-sorted list of match indices and every
focus, `next_search_match` returns the smallest index strictly greater than
the focus, wrapping to the smallest index overall if none is greater, and
`prev_search_match` returns the largest index strictly smaller than the
focus, wrapping to the largest overall; with indices `[2, 5, 9]`,
`next_search_match` at 9 gives 2 and `prev_search_match` at 2 gives 9. -/
theorem c7_next_prev_match (l : List Nat) (f : Nat)
    (hs : l.Pairwise (· < ·)) (hne : l ≠ []) :
    (next_search_match l f ∈ l
      ∧ ((∃ j ∈ l, f < j) →
          f < next_search_match l f ∧ ∀ j ∈ l, f < j → next_search_match l f ≤ j)
      ∧ ((∀ j ∈ l, ¬ f < j) → ∀ j ∈ l, next_search_match l f ≤ j))
    ∧ (prev_search_match l f ∈ l
      ∧ ((∃ j ∈ l, j < f) →
          prev_search_match l f < f ∧ ∀ j ∈ l, j < f → j ≤ prev_search_match l f)
      ∧ ((∀ j ∈ l, ¬ j < f) → ∀ j ∈ l, j ≤ prev_search_match l f))
    ∧ next_search_match [2, 5, 9] 9 = 2 ∧ prev_search_match [2, 5, 9] 2 = 9 := by
  rcases l with _ | ⟨x, xs⟩
  · exact absurd rfl hne
  refine ⟨?_, ?_, by decide, by decide⟩
  · simp only [next_search_match]
    cases hfind : (x :: xs).find? fun i => decide (f < i) with
    | some m =>
      simp only [Option.getD_some]
      obtain ⟨hmem, hpm, hmin⟩ := find?_pairwise (· < ·) _ (x :: xs) m hs hfind
      have hfm : f < m := by simpa using hpm
      refine ⟨hmem, ?_, ?_⟩
      · intro _
        refine ⟨hfm, ?_⟩
        intro j hj hfj
        rcases hmin j hj (by simpa using hfj) with heq | hlt
        · exact Nat.le_of_eq heq
        · exact Nat.le_of_lt hlt
      · intro hnone
        exact absurd hfm (hnone m hmem)
    | none =>
      simp only [Option.getD_none]
      have hnosat := List.find?_eq_none.mp hfind
      refine ⟨List.mem_cons_self _ _, ?_, ?_⟩
      · rintro ⟨j, hj, hfj⟩
        exact absurd (by simpa using hfj : decide (f < j) = true) (by simpa using hnosat j hj)
      · intro _
        exact head_min_of_sorted x xs hs
  · simp only [prev_search_match]
    have hrpw : ((x :: xs).reverse).Pairwise (fun a b => b < a) :=
      List.pairwise_reverse.mpr hs
    cases hfind : (x :: xs).reverse.find? fun i => decide (i < f) with
    | some m =>
      simp only [Option.getD_some]
      obtain ⟨hmem, hpm, hmin⟩ := find?_pairwise (fun a b => b < a) _ _ m hrpw hfind
      have hmf : m < f := by simpa using hpm
      have hmeml : m ∈ x :: xs := by
        rw [← List.mem_reverse]
        exact hmem
      refine ⟨hmeml, ?_, ?_⟩
      · intro _
        refine ⟨hmf, ?_⟩
        intro j hj hjf
        rcases hmin j (List.mem_reverse.mpr hj) (by simpa using hjf) with heq | hlt
        · exact Nat.le_of_eq heq.symm
        · exact Nat.le_of_lt hlt
      · intro hnone
        exact absurd hmf (hnone m hmeml)
    | none =>
      simp only [Option.getD_none]
      have hnosat := List.find?_eq_none.mp hfind
      refine ⟨?_, ?_, ?_⟩
      · rw [List.getLastD_cons]
        exact List.getLastD_mem_cons xs x
      · rintro ⟨j, hj, hjf⟩
        exact absurd (by simpa using hjf : decide (j < f) = true)
          (by simpa using hnosat j (List.mem_reverse.mpr hj))
      · intro _
        exact getLastD_max_of_sorted (x :: xs) x hs (by simp)

/-- Witness for C7 at the claim's example indices. -/
theorem c7_witness :
    next_search_match [2, 5, 9] 9 ∈ [2, 5, 9]
      ∧ prev_search_match [2, 5, 9] 2 ∈ [2, 5, 9] :=
  ⟨(c7_next_prev_match [2, 5, 9] 9 (by decide) (by decide)).1.1,
   (c7_next_prev_match [2, 5, 9] 2 (by decide) (by decide)).2.1.1⟩

/-- A queue entry as used by `LibraryAlbum.enqueue`: its MPD id (`track['id']`
after `int()` conversion) and its title (`track['title']`). -/
structure Track where
  id : Nat
  title : String
  deriving DecidableEq

/-- The selection step of `LibraryAlbum.enqueue` (app.py lines 265-269):
`first = tracks[0]`, then the id of the first entry of `reversed(tracks)`
whose title equals `first`'s title; `none` models the
`ValueError('There should be tracks here...')` raised on an empty result. -/
def selectTrackId : List Track → Option Nat
  | [] => none
  | first :: rest =>
    (((first :: rest).reverse).find? fun t => decide (t.title = first.title)).map Track.id

/-- The play command issued after selection:
`client.playid(int(last_track_id))`, where `MPDClient.playid` runs
`playid {track_id}`. -/
def playCommand (tracks : List Track) : Option String :=
  (selectTrackId tracks).map fun i => "playid " ++ toString i

lemma find?_split {α : Type} (p : α → Bool) :
    ∀ (l : List α) (x : α), l.find? p = some x →
      ∃ l1 l2, l = l1 ++ x :: l2 ∧ p x = true ∧ ∀ y ∈ l1, p y = false := by
  intro l
  induction l with
  | nil => simp
  | cons a t ih =>
    intro x hfind
    cases hpa : p a
    · rw [List.find?_cons_of_neg _ (by simp [hpa])] at hfind
      obtain ⟨l1, l2, heq, hpx, hl1⟩ := ih x hfind
      refine ⟨a :: l1, l2, by rw [heq, List.cons_append], hpx, ?_⟩
      intro y hy
      rcases List.mem_cons.mp hy with rfl | hyt
      · exact hpa
      · exact hl1 y hyt
    · rw [List.find?_cons_of_pos _ hpa] at hfind
      obtain rfl : a = x := by injection hfind
      exact ⟨[], t, rfl, hpa, by simp⟩

lemma find?_reverse_split {α : Type} (p : α → Bool) (l : List α) (x : α)
    (h : l.reverse.find? p = some x) :
    ∃ l1 l2, l = l1 ++ x :: l2 ∧ p x = true ∧ ∀ y ∈ l2, p y = false := by
  obtain ⟨r1, r2, hrev, hpx, hr1⟩ := find?_split p l.reverse x h
  refine ⟨r2.reverse, r1.reverse, ?_, hpx, fun y hy => hr1 y (List.mem_reverse.mp hy)⟩
  have hl : l = (l.reverse).reverse := (List.reverse_reverse l).symm
  rw [hl, hrev]
  simp

/-- C8: in enqueue-and-play-first-matching, the entry selected for the play
command is always the last queue entry whose title equals the title of the
first matching candidate, and that selection is played by id (a
`playid <id>` command). -/
theorem c8_enqueue_selection (tracks : List Track) (first : Track)
    (h : tracks.head? = some first) :
    ∃ chosen l1 l2,
      tracks = l1 ++ chosen :: l2
        ∧ chosen.title = first.title
        ∧ (∀ t ∈ l2, t.title ≠ first.title)
        ∧ selectTrackId tracks = some chosen.id
        ∧ playCommand tracks = some ("playid " ++ toString chosen.id) := by
  rcases tracks with _ | ⟨a, rest⟩
  · simp at h
  have ha : a = first := by simpa using h
  subst ha
  have hmem : a ∈ (a :: rest).reverse := by simp
  have hisSome : ((a :: rest).reverse.find? fun t => decide (t.title = a.title)).isSome :=
    List.find?_isSome.mpr ⟨a, hmem, by simp⟩
  obtain ⟨x, hx⟩ := Option.isSome_iff_exists.mp hisSome
  obtain ⟨l1, l2, heq, hpx, hl2⟩ := find?_reverse_split _ _ x hx
  refine ⟨x, l1, l2, heq, by simpa using hpx, ?_, ?_, ?_⟩
  · intro t ht
    simpa using hl2 t ht
  · simp only [selectTrackId]
    rw [hx]
    rfl
  · unfold playCommand
    simp only [selectTrackId]
    rw [hx]
    rfl

/-- Witness for C8: among two entries titled `A` the later one (id 3) is
selected and played by id. -/
theorem c8_enqueue_selection_witness :
    ∃ chosen l1 l2,
      [Track.mk 1 "A", Track.mk 2 "B", Track.mk 3 "A"] = l1 ++ chosen :: l2
        ∧ chosen.title = ("A" : String)
        ∧ (∀ t ∈ l2, t.title ≠ ("A" : String))
        ∧ selectTrackId [Track.mk 1 "A", Track.mk 2 "B", Track.mk 3 "A"] = some chosen.id
        ∧ playCommand [Track.mk 1 "A", Track.mk 2 "B", Track.mk 3 "A"]
            = some ("playid " ++ toString chosen.id) :=
  c8_enqueue_selection [Track.mk 1 "A", Track.mk 2 "B", Track.mk 3 "A"]
    (Track.mk 1 "A") rfl

/-- Predicate `word and word[0] == suffix[0]` from `_prefix_search` (util.py): the word
is non-empty and starts with `c`. -/
def headIs : List Char → Char → Bool
  | [], _ => false
  | d :: _, c => decide (d = c)

/-- Function `_prefix_search(prefix, suffix, words)` from util.py lines 34-48: empty
word list gives `[]`; empty suffix rebuilds `prefix + word` for every word;
otherwise take the contiguous run of words starting with the next suffix
character (dropwhile/takewhile), strip their first character, and recurse. -/
def pfxSearchAux : List Char → List Char → List (List Char) → List (List Char)
  | _, _, [] => []
  | pre, [], words => words.map fun w => pre ++ w
  | pre, c :: suf, words =>
    pfxSearchAux (pre ++ [c]) suf
      (((words.dropWhile fun w => !(headIs w c)).takeWhile fun w => headIs w c).map
        fun w => w.drop 1)

/-- Function `prefix_matches(prefix, words)` from util.py line 30:
`_prefix_search('', prefix, words)`. -/
def pfxMatches (suffix : List Char) (words : List (List Char)) : List (List Char) :=
  pfxSearchAux [] suffix words

/-- Decidable "is a prefix of" on character lists. -/
def isPre : List Char → List Char → Bool
  | [], _ => true
  | _ :: _, [] => false
  | a :: as, b :: bs => decide (a = b) && isPre as bs

/-- Lexicographic less-or-equal on character lists: the order Python `sorted`
uses on strings (compare by code point, shorter prefix first). -/
def lleb : List Char → List Char → Bool
  | [], _ => true
  | _ :: _, [] => false
  | a :: as, b :: bs => if a = b then lleb as bs else decide (a < b)

/-- The search state of `VimListBox` (app.py lines 146-150): the sorted
candidate words (`sorted(self.search_contents)`, lower-cased keys) and the
stack of narrowing steps `search_results`. -/
structure SearchState where
  contents : List (List Char)
  results : List (List (List Char))
  deriving DecidableEq

/-- Method `VimListBox.search_keypress` (app.py lines 176-190): if the input shrank,
pop the last step; otherwise run `prefix_matches(value.lower(), words)` on
the previous step's candidates (or on the sorted contents for the first
step) and push the result. -/
def search_keypress (st : SearchState) (value : List Char) : SearchState :=
  if value.length < st.results.length then
    { st with results := st.results.dropLast }
  else
    { st with results := st.results ++
        [pfxMatches (lowerList value)
          (match st.results.getLast? with
           | some ws => ws
           | none => st.contents)] }

lemma headIs_convex (c : Char) (u v z : List Char)
    (huv : lleb u v = true) (hvz : lleb v z = true)
    (hu : headIs u c = true) (hz : headIs z c = true) : headIs v c = true := by
  rcases u with _ | ⟨a, u2⟩
  · simp [headIs] at hu
  rcases z with _ | ⟨d, z2⟩
  · simp [headIs] at hz
  rcases v with _ | ⟨b, v2⟩
  · simp [lleb] at huv
  have ha : a = c := by simpa [headIs] using hu
  have hd : d = c := by simpa [headIs] using hz
  simp only [headIs, decide_eq_true_eq]
  by_cases hab : a = b
  · rw [← hab]
    exact ha
  · have h1 : a < b := by
      rw [lleb, if_neg hab] at huv
      simpa using huv
    by_cases hba : b = d
    · rw [hba]
      exact hd
    · have h2 : b < d := by
        rw [lleb, if_neg hba] at hvz
        simpa using hvz
      have had : a = d := ha.trans hd.symm
      rw [← had] at h2
      exact absurd h1 (lt_asymm h2)

lemma takeWhile_eq_filter_of_bound (c : Char) :
    ∀ (t : List (List Char)) (a : List Char), headIs a c = true →
      (∀ b ∈ t, lleb a b = true) →
      t.Pairwise (fun x y => lleb x y = true) →
      (t.takeWhile fun w => headIs w c) = t.filter fun w => headIs w c := by
  intro t
  induction t with
  | nil => simp
  | cons b ts ih =>
    intro a ha hab hpw
    have hpw2 := List.pairwise_cons.mp hpw
    cases hb : headIs b c
    · rw [List.takeWhile_cons_of_neg (by simp [hb]), List.filter_cons_of_neg (by simp [hb])]
      symm
      rw [List.filter_eq_nil_iff]
      intro x hx hcx
      have hbx : headIs b c = true :=
        headIs_convex c a b x (hab b (List.mem_cons_self _ _)) (hpw2.1 x hx) ha hcx
      rw [hb] at hbx
      exact Bool.false_ne_true hbx
    · rw [List.takeWhile_cons_of_pos (by simp [hb]), List.filter_cons_of_pos (by simp [hb])]
      rw [ih b hb hpw2.1 hpw2.2]

lemma dropWhile_takeWhile_eq_filter (c : Char) :
    ∀ ws : List (List Char), ws.Pairwise (fun x y => lleb x y = true) →
      ((ws.dropWhile fun w => !(headIs w c)).takeWhile fun w => headIs w c)
        = ws.filter fun w => headIs w c := by
  intro ws
  induction ws with
  | nil => simp
  | cons a t ih =>
    intro hpw
    have hpw2 := List.pairwise_cons.mp hpw
    cases ha : headIs a c
    · rw [List.dropWhile_cons_of_pos (by simp [ha]), List.filter_cons_of_neg (by simp [ha])]
      exact ih hpw2.2
    · rw [List.dropWhile_cons_of_neg (by simp [ha]),
        List.takeWhile_cons_of_pos (by simp [ha]), List.filter_cons_of_pos (by simp [ha])]
      rw [takeWhile_eq_filter_of_bound c t a ha hpw2.1 hpw2.2]

lemma pairwise_drop_one (c : Char) (ws : List (List Char))
    (hpw : ws.Pairwise (fun x y => lleb x y = true))
    (hall : ∀ w ∈ ws, headIs w c = true) :
    (ws.map fun w => w.drop 1).Pairwise (fun x y => lleb x y = true) := by
  rw [List.pairwise_map]
  refine hpw.imp_of_mem ?_
  intro a b hma hmb hab
  rcases a with _ | ⟨x, a2⟩
  · have := hall [] hma
    simp [headIs] at this
  rcases b with _ | ⟨y, b2⟩
  · have := hall [] hmb
    simp [headIs] at this
  have hx : x = c := by simpa [headIs] using hall (x :: a2) hma
  have hy : y = c := by simpa [headIs] using hall (y :: b2) hmb
  subst hx
  subst hy
  rw [lleb, if_pos rfl] at hab
  simpa using hab

lemma isPre_cons (c : Char) (suf : List Char) (w : List Char) :
    isPre (c :: suf) w = (headIs w c && isPre suf (w.drop 1)) := by
  rcases w with _ | ⟨d, w2⟩
  · simp [isPre, headIs]
  · simp only [isPre, headIs, List.drop_succ_cons, List.drop_zero]
    have hcomm : decide (c = d) = decide (d = c) := by simp [eq_comm]
    rw [hcomm]

lemma isPre_append_get (a : Char) :
    ∀ (p w : List Char), isPre p w = true →
      (isPre (p ++ [a]) w = true ↔ w.get? p.length = some a) := by
  intro p
  induction p with
  | nil =>
    intro w _
    rcases w with _ | ⟨d, w2⟩
    · simp [isPre]
    · simp [isPre, eq_comm]
  | cons b p2 ih =>
    intro w hw
    rcases w with _ | ⟨d, w2⟩
    · simp [isPre] at hw
    · have hbd : b = d ∧ isPre p2 w2 = true := by simpa [isPre] using hw
      obtain ⟨rfl, hw2⟩ := hbd
      simp only [List.cons_append, isPre, List.get?_cons_succ, List.length_cons,
        decide_eq_true_eq, Bool.and_eq_true, true_and]
      exact ih w2 hw2

lemma filtered_map_drop (c : Char) (suf2 pre : List Char) :
    ∀ ws : List (List Char),
      (((ws.filter fun w => headIs w c).map fun w => w.drop 1).filter fun w =>
          isPre suf2 w).map (fun w => (pre ++ [c]) ++ w)
        = (ws.filter fun w => isPre (c :: suf2) w).map fun w => pre ++ w := by
  intro ws
  induction ws with
  | nil => rfl
  | cons a t ih =>
    cases ha : headIs a c
    · rw [List.filter_cons_of_neg (by simp [ha]),
        List.filter_cons_of_neg (by simp [isPre_cons, ha])]
      exact ih
    · rw [List.filter_cons_of_pos (by simp [ha])]
      simp only [List.map_cons]
      cases hp : isPre suf2 a.tail
      · rw [List.filter_cons_of_neg (by simp [List.drop_one, hp]),
          List.filter_cons_of_neg (by simp [isPre_cons, ha, List.drop_one, hp])]
        exact ih
      · rw [List.filter_cons_of_pos (by simp [List.drop_one, hp]),
          List.filter_cons_of_pos (by simp [isPre_cons, ha, List.drop_one, hp])]
        simp only [List.map_cons]
        rw [ih]
        rcases a with _ | ⟨d, a2⟩
        · simp [headIs] at ha
        · have hd : d = c := by simpa [headIs] using ha
          subst hd
          simp

lemma pfxSearchAux_eq_filter (suf : List Char) :
    ∀ (pre : List Char) (ws : List (List Char)),
      ws.Pairwise (fun x y => lleb x y = true) →
      pfxSearchAux pre suf ws
        = (ws.filter fun w => isPre suf w).map fun w => pre ++ w := by
  induction suf with
  | nil =>
    intro pre ws _
    rcases ws with _ | ⟨w, ws2⟩
    · rfl
    · simp [pfxSearchAux, isPre]
  | cons c suf2 ih =>
    intro pre ws hpw
    rcases ws with _ | ⟨w, ws2⟩
    · rfl
    · have hF := dropWhile_takeWhile_eq_filter c (w :: ws2) hpw
      have hFpw : ((w :: ws2).filter fun w => headIs w c).Pairwise
          (fun x y => lleb x y = true) :=
        List.Pairwise.sublist (List.filter_sublist _) hpw
      have hall : ∀ x ∈ (w :: ws2).filter fun w => headIs w c, headIs x c = true :=
        fun x hx => (List.mem_filter.mp hx).2
      simp only [pfxSearchAux]
      rw [hF, ih (pre ++ [c]) _ (pairwise_drop_one c _ hFpw hall)]
      exact filtered_map_drop c suf2 pre (w :: ws2)

/-- On a sorted word list, `prefix_matches` is exactly the prefix filter. -/
lemma pfxMatches_eq_filter (suf : List Char) (ws : List (List Char))
    (hpw : ws.Pairwise (fun x y => lleb x y = true)) :
    pfxMatches suf ws = ws.filter fun w => isPre suf w := by
  unfold pfxMatches
  rw [pfxSearchAux_eq_filter suf [] ws hpw]
  simp

lemma pfxSearchAux_nil (pre suf : List Char) : pfxSearchAux pre suf [] = [] := by
  cases suf <;> rfl

/-- C5: for every step in which the search input grew by one character, the
new candidate word set equals the subset of the previous step's candidate
set whose character at the newly typed offset equals the typed character
under case-insensitive comparison, pushed as a new step; and once a step's
candidate set is empty, every further grow step without a backspace also
yields an empty set.  The hypotheses are the invariants `search_keypress`
maintains: the previous step's candidates are sorted (the initial word list
is `sorted(...)` and narrowing preserves order), they extend the lowered
previous input, and they are lower-case (search contents are stored under
`key.lower()`). -/
theorem c5_incremental_narrowing (st : SearchState) (prev : List (List Char))
    (v value : List Char) (c : Char) :
    (st.results.getLast? = some prev →
      prev.Pairwise (fun x y => lleb x y = true) →
      (∀ w ∈ prev, isPre (lowerList v) w = true) →
      (∀ w ∈ prev, ∀ d ∈ w, lowerChar d = d) →
      ¬ ((v ++ [c]).length < st.results.length) →
      (search_keypress st (v ++ [c])).results
        = st.results ++ [prev.filter fun w =>
            decide ((w.get? v.length).map lowerChar = some (lowerChar c))])
    ∧ (st.results.getLast? = some [] →
        ¬ (value.length < st.results.length) →
        (search_keypress st value).results.getLast? = some []) := by
  constructor
  · intro hlast hpw hpref hlow hgrow
    unfold search_keypress
    rw [if_neg hgrow]
    simp only [hlast]
    congr 1
    congr 1
    rw [pfxMatches_eq_filter _ _ hpw]
    apply List.filter_congr
    intro w hw
    have hlv : lowerList (v ++ [c]) = lowerList v ++ [lowerChar c] := by simp [lowerList]
    rw [hlv]
    have hiff := isPre_append_get (lowerChar c) (lowerList v) w (hpref w hw)
    have hlen : (lowerList v).length = v.length := by simp [lowerList]
    rw [hlen] at hiff
    rw [Bool.eq_iff_iff, decide_eq_true_eq, hiff]
    cases hget : w.get? v.length with
    | none => simp
    | some d =>
      have hd : lowerChar d = d := hlow w hw d (List.get?_mem hget)
      simp [hd]
  · intro hlast hgrow
    unfold search_keypress
    rw [if_neg hgrow]
    simp only [hlast]
    have h0 : pfxMatches (lowerList value) [] = [] := pfxSearchAux_nil [] (lowerList value)
    rw [h0, List.getLast?_concat]

/-- Witness for C5: typing `b` after `a` narrows the sorted candidates
`ab`, `ax` to `ab`; growing from an empty step stays empty. -/
theorem c5_incremental_narrowing_witness :
    (search_keypress ⟨[['a', 'b'], ['a', 'x']], [[['a', 'b'], ['a', 'x']]]⟩
        (['a'] ++ ['b'])).results
      = [[['a', 'b'], ['a', 'x']]] ++ [[['a', 'b'], ['a', 'x']].filter fun w =>
          decide ((w.get? (['a'] : List Char).length).map lowerChar = some (lowerChar 'b'))]
    ∧ (search_keypress ⟨[], [([] : List (List Char))]⟩ ['z']).results.getLast? = some [] :=
  ⟨(c5_incremental_narrowing ⟨[['a', 'b'], ['a', 'x']], [[['a', 'b'], ['a', 'x']]]⟩
      [['a', 'b'], ['a', 'x']] ['a'] ['z'] 'b').1
      (by decide) (by decide) (by decide) (by decide) (by decide),
   (c5_incremental_narrowing ⟨[], [([] : List (List Char))]⟩ [] ['z'] ['z'] 'b').2
      (by decide) (by decide)⟩

/-- C6: a grow step followed by a shrink step is the identity on the whole
search state: the shrink pops the pushed step and recomputes nothing, so
typing `abc` then backspacing to `ab` yields exactly the candidate set that
existed after first typing `ab`. -/
theorem c6_backspace_pops (st : SearchState) (v w : List Char)
    (hgrow : ¬ (v.length < st.results.length))
    (hshrink : w.length < st.results.length + 1) :
    search_keypress (search_keypress st v) w = st := by
  obtain ⟨cs, rs⟩ := st
  have h1 : search_keypress ⟨cs, rs⟩ v
      = ⟨cs, rs ++ [pfxMatches (lowerList v)
          (match rs.getLast? with | some ws => ws | none => cs)]⟩ := by
    unfold search_keypress
    rw [if_neg hgrow]
  rw [h1]
  unfold search_keypress
  rw [if_pos (by simpa using hshrink)]
  simp

/-- Witness for C6 at a concrete state. -/
theorem c6_backspace_pops_witness :
    search_keypress (search_keypress ⟨[['a']], []⟩ ['a']) [] = ⟨[['a']], []⟩ :=
  c6_backspace_pops ⟨[['a']], []⟩ ['a'] [] (by decide) (by decide)
